import Mathlib

/-!
Verification of the LyftrAI webhook message service: a shallow embedding of
the message store (app/storage.py), the signature verifier (app/main.py) and
the metrics collector (app/metrics.py), together with proofs of the spec's
testable properties.

Modelling conventions:
- The SQLite table of messages is a list of rows in insertion order.  The
  schema (storage.py, init_schema) declares message_id TEXT PRIMARY KEY and
  NOT NULL on from_msisdn, to_msisdn, ts, created_at; text is nullable.
  An INSERT raises sqlite3.IntegrityError when the primary key is duplicated
  or a NOT NULL column receives NULL; both are modelled explicitly.
- TEXT comparison (ts >= since, ORDER BY, MIN/MAX) uses SQLite's BINARY
  collation, i.e. byte-wise UTF-8 order, which coincides with lexicographic
  order on code points; it is modelled by an executable three-way comparison
  on character lists.
- LIKE patterns are modelled character by character: the wildcard percent
  matches any sequence, underscore matches exactly one character, and other
  characters compare ASCII-case-insensitively, as SQLite's default LIKE does.
- datetime.now() (the created_at column) is an explicit parameter.
- Latency values (Python floats) are modelled as rationals; the bucket
  boundaries are small integers, for which the order comparisons coincide.
-/

/-! ## Message store: data model (storage.py) -/

/-- A stored row of the messages table.  Fields mirror the columns declared
in Database.init_schema; text is the single nullable column. -/
structure Msg where
  message_id : String
  from_msisdn : String
  to_msisdn : String
  ts : String
  text : Option String
  created_at : String
deriving DecidableEq

/-- Does the table already contain a row with the given primary key? -/
def hasMessageId (tbl : List Msg) (mid : String) : Bool :=
  tbl.any (fun m => m.message_id == mid)

/-- Database.insert_message (storage.py lines 73-103).  The INSERT appends a
row; sqlite3.IntegrityError is raised when the primary key message_id is
already present, or when one of the NOT NULL columns from_msisdn, to_msisdn,
ts receives NULL (modelled by Option arguments, none = Python None).  The
except branch catches every IntegrityError and returns (True, True); a
successful insert returns (True, False).  created_at is the server-generated
timestamp, passed here as an explicit parameter. -/
def insert_message (tbl : List Msg) (message_id : String)
    (from_msisdn to_msisdn ts : Option String) (text : Option String)
    (created_at : String) : List Msg × Bool × Bool :=
  match from_msisdn, to_msisdn, ts with
  | some f, some t, some ts0 =>
      if hasMessageId tbl message_id then
        (tbl, true, true)
      else
        (tbl ++ [⟨message_id, f, t, ts0, text, created_at⟩], true, false)
  | _, _, _ => (tbl, true, true)

/-! ## String comparison (SQLite BINARY collation) -/

/-- Three-way byte-wise comparison of character lists (SQLite BINARY
collation on TEXT values: UTF-8 byte order = code point order). -/
def cmpChars : List Char → List Char → Ordering
  | [], [] => .eq
  | [], _ :: _ => .lt
  | _ :: _, [] => .gt
  | a :: as, b :: bs =>
      if a.toNat < b.toNat then .lt
      else if b.toNat < a.toNat then .gt
      else cmpChars as bs

/-- Three-way comparison of strings under SQLite's BINARY collation. -/
def strCmp (a b : String) : Ordering := cmpChars a.data b.data

/-- Strict TEXT less-than. -/
def strLtb (a b : String) : Bool := strCmp a b == .lt

/-- TEXT less-or-equal (used for the SQL condition ts >= since). -/
def strLeb (a b : String) : Bool := !(strCmp a b == .gt)

/-! ## LIKE matching (the q filter) -/

/-- ASCII lower-casing of a single character, the folding SQLite's default
LIKE applies (only A-Z fold; everything else is compared verbatim). -/
def lcChar (c : Char) : Char :=
  if 65 ≤ c.toNat ∧ c.toNat ≤ 90 then Char.ofNat (c.toNat + 32) else c

/-- Worker for LIKE matching; each recursive call shrinks the combined
length of pattern and text, so the fuel argument makes the recursion
structural while never running out when started at that combined length. -/
def likeGo : Nat → List Char → List Char → Bool
  | 0, _, _ => false
  | fuel + 1, p, s =>
      match p with
      | [] => s.isEmpty
      | p0 :: ps =>
          if p0 = '%' then
            likeGo fuel ps s ||
              (match s with
               | [] => false
               | _ :: s1 => likeGo fuel (p0 :: ps) s1)
          else
            match s with
            | [] => false
            | c :: s1 =>
                (if p0 = '_' then true else lcChar p0 == lcChar c) &&
                  likeGo fuel ps s1

/-- SQLite LIKE pattern matching over characters: the percent wildcard
matches any (possibly empty) sequence, underscore matches exactly one
character, any other pattern character matches ASCII-case-insensitively. -/
def likeMatch (p s : List Char) : Bool :=
  likeGo (p.length + s.length + 1) p s

/-! ## Filters (Database.get_messages, storage.py lines 119-134) -/

/-- Condition from_msisdn = ?, appended only when from_filter is truthy
(Python: if from_filter, so None and the empty string add no condition). -/
def matchesFrom (from_filter : Option String) (m : Msg) : Bool :=
  match from_filter with
  | none => true
  | some f => if f = "" then true else m.from_msisdn == f

/-- Condition ts >= ?, appended only when since is truthy; string comparison
under BINARY collation. -/
def matchesSince (since : Option String) (m : Msg) : Bool :=
  match since with
  | none => true
  | some s => if s = "" then true else strLeb s m.ts

/-- Condition text LIKE ?, with the parameter the percent-wrapped q,
appended only when q is truthy.  A NULL text makes the LIKE condition NULL,
which the WHERE clause treats as not matching. -/
def matchesQ (q : Option String) (m : Msg) : Bool :=
  match q with
  | none => true
  | some qs =>
      if qs = "" then true
      else
        match m.text with
        | none => false
        | some t => likeMatch ('%' :: (qs.data ++ ['%'])) t.data

/-- The WHERE clause: the conjunction of the three optional conditions. -/
def matchesFilters (from_filter since q : Option String) (m : Msg) : Bool :=
  matchesFrom from_filter m && matchesSince since m && matchesQ q m

/-! ## Ordering and pagination (storage.py lines 136-166) -/

/-- The ORDER BY ts ASC, message_id ASC key as a boolean total preorder. -/
def msgLeb (a b : Msg) : Bool :=
  strLtb a.ts b.ts || (a.ts == b.ts && strLeb a.message_id b.message_id)

/-- The result order produced by ORDER BY ts ASC, message_id ASC; modelled
by an insertion sort on the key, which is deterministic. -/
def sortMsgs (l : List Msg) : List Msg :=
  List.insertionSort (fun a b => msgLeb a b = true) l

/-- SQL OFFSET: a negative offset is treated as zero. -/
def sqlOffset (l : List Msg) (offset : Int) : List Msg := l.drop offset.toNat

/-- SQL LIMIT: a negative limit means no limit, otherwise at most that many
rows are returned. -/
def sqlLimit (l : List Msg) (limit : Int) : List Msg :=
  if limit < 0 then l else l.take limit.toNat

/-- Database.get_messages (storage.py lines 105-166): builds the WHERE
clause from the truthy filters, computes total as COUNT(*) under the same
filters before pagination, then returns the page selected by ORDER BY ts
ASC, message_id ASC LIMIT ? OFFSET ?.  No validation of limit or offset is
performed anywhere in the function. -/
def get_messages (tbl : List Msg) (limit offset : Int)
    (from_filter since q : Option String) : List Msg × Nat :=
  let filtered := tbl.filter (matchesFilters from_filter since q)
  let total := filtered.length
  (sqlLimit (sqlOffset (sortMsgs filtered) offset) limit, total)

/-! ## Statistics (Database.get_stats, storage.py lines 168-206) -/

/-- The result record of Database.get_stats. -/
structure Stats where
  total_messages : Nat
  senders_count : Nat
  messages_per_sender : List (String × Nat)
  first_message_ts : Option String
  last_message_ts : Option String
deriving DecidableEq

/-- The distinct senders of the table (SELECT DISTINCT from_msisdn). -/
def sendersDedup (tbl : List Msg) : List String :=
  (tbl.map Msg.from_msisdn).dedup

/-- GROUP BY from_msisdn with COUNT(*): one (sender, count) pair per
distinct sender. -/
def senderCounts (tbl : List Msg) : List (String × Nat) :=
  (sendersDedup tbl).map (fun s => (s, (tbl.map Msg.from_msisdn).count s))

/-- ORDER BY count DESC (ties left in an unspecified but deterministic
order, as in SQLite). -/
def sortCountsDesc (l : List (String × Nat)) : List (String × Nat) :=
  List.insertionSort (fun p q => q.2 ≤ p.2) l

/-- One step of the MIN(ts) aggregate scan. -/
def minStep (acc : Option String) (s : String) : Option String :=
  match acc with
  | none => some s
  | some m => some (if strLtb s m then s else m)

/-- SQL MIN(ts): the aggregate scan keeping the smallest TEXT value. -/
def minTs (l : List String) : Option String := l.foldl minStep none

/-- One step of the MAX(ts) aggregate scan. -/
def maxStep (acc : Option String) (s : String) : Option String :=
  match acc with
  | none => some s
  | some m => some (if strLtb m s then s else m)

/-- SQL MAX(ts): the aggregate scan keeping the largest TEXT value. -/
def maxTs (l : List String) : Option String := l.foldl maxStep none

/-- Database.get_stats (storage.py lines 168-206): COUNT(*), COUNT(DISTINCT
from_msisdn), the top senders by count limited to 10 rows, and MIN/MAX of
ts (NULL on an empty table). -/
def get_stats (tbl : List Msg) : Stats :=
  { total_messages := tbl.length
    senders_count := (sendersDedup tbl).length
    messages_per_sender := (sortCountsDesc (senderCounts tbl)).take 10
    first_message_ts := minTs (tbl.map Msg.ts)
    last_message_ts := maxTs (tbl.map Msg.ts) }

/-! ## Metrics collector (app/metrics.py) -/

/-- A histogram bucket boundary in milliseconds; none is the +Inf bucket. -/
abbrev Boundary := Option ℚ

/-- The fixed bucket boundaries of MetricsCollector (metrics.py line 18). -/
def latencyBuckets : List Boundary :=
  [some 10, some 25, some 50, some 100, some 250, some 500,
   some 1000, some 2500, some 5000, none]

/-- The latency-histogram part of MetricsCollector's state. -/
structure MetricsState where
  latency_counts : List (Boundary × Nat)
  latency_sum : ℚ
  latency_count : Nat
deriving DecidableEq

/-- MetricsCollector.__init__: every bucket count starts at zero. -/
def initMetrics : MetricsState :=
  { latency_counts := latencyBuckets.map (fun b => (b, 0))
    latency_sum := 0
    latency_count := 0 }

/-- The Python comparison latency_ms <= bucket (everything is <= +Inf). -/
def leBoundary (x : ℚ) : Boundary → Bool
  | none => true
  | some b => decide (x ≤ b)

/-- MetricsCollector.observe_latency (metrics.py lines 34-41): adds to the
running sum, increments the running count, and increments the count of
every bucket whose boundary is >= the observation. -/
def observe_latency (st : MetricsState) (ms : ℚ) : MetricsState :=
  { latency_counts :=
      st.latency_counts.map (fun e => if leBoundary ms e.1 then (e.1, e.2 + 1) else e)
    latency_sum := st.latency_sum + ms
    latency_count := st.latency_count + 1 }

/-- The Python comparison b <= bucket between boundaries (+Inf is the
greatest). -/
def boundaryLE : Boundary → Boundary → Bool
  | _, none => true
  | none, some _ => false
  | some a, some b => decide (a ≤ b)

/-- The number MetricsCollector.export (metrics.py lines 73-82) prints for
request_latency_ms_bucket with label le = b: the sum of the stored counts
of all buckets whose boundary is <= b.  (The first cumulative loop at lines
65-71 is dead: its result is overwritten before use.) -/
def exportBucketValue (st : MetricsState) (b : Boundary) : Nat :=
  ((st.latency_counts.filter (fun e => boundaryLE e.1 b)).map (fun e => e.2)).sum

/-! ## Signature verification (app/main.py lines 107-114) -/

/-- Truncation to a 32-bit word. -/
def w32 (n : Nat) : Nat := n % 4294967296

/-- 32-bit right rotation (the input is assumed < 2^32). -/
def rotr32 (n x : Nat) : Nat :=
  w32 (Nat.lor (Nat.shiftRight x n) (Nat.shiftLeft x (32 - n)))

/-- The SHA-256 round constants. -/
def sha256K : List Nat :=
  [1116352408, 1899447441, 3049323471, 3921009573,
   961987163, 1508970993, 2453635748, 2870763221,
   3624381080, 310598401, 607225278, 1426881987,
   1925078388, 2162078206, 2614888103, 3248222580,
   3835390401, 4022224774, 264347078, 604807628,
   770255983, 1249150122, 1555081692, 1996064986,
   2554220882, 2821834349, 2952996808, 3210313671,
   3336571891, 3584528711, 113926993, 338241895,
   666307205, 773529912, 1294757372, 1396182291,
   1695183700, 1986661051, 2177026350, 2456956037,
   2730485921, 2820302411, 3259730800, 3345764771,
   3516065817, 3600352804, 4094571909, 275423344,
   430227734, 506948616, 659060556, 883997877,
   958139571, 1322822218, 1537002063, 1747873779,
   1955562222, 2024104815, 2227730452, 2361852424,
   2428436474, 2756734187, 3204031479, 3329325298]

/-- The SHA-256 Sigma-0 word function. -/
def bigSigma0 (x : Nat) : Nat :=
  Nat.xor (rotr32 2 x) (Nat.xor (rotr32 13 x) (rotr32 22 x))

/-- The SHA-256 Sigma-1 word function. -/
def bigSigma1 (x : Nat) : Nat :=
  Nat.xor (rotr32 6 x) (Nat.xor (rotr32 11 x) (rotr32 25 x))

/-- The SHA-256 sigma-0 schedule function. -/
def smallSigma0 (x : Nat) : Nat :=
  Nat.xor (rotr32 7 x) (Nat.xor (rotr32 18 x) (Nat.shiftRight x 3))

/-- The SHA-256 sigma-1 schedule function. -/
def smallSigma1 (x : Nat) : Nat :=
  Nat.xor (rotr32 17 x) (Nat.xor (rotr32 19 x) (Nat.shiftRight x 10))

/-- The SHA-256 choice function Ch(x,y,z). -/
def chF (x y z : Nat) : Nat :=
  Nat.xor (Nat.land x y) (Nat.land (Nat.xor x 4294967295) z)

/-- The SHA-256 majority function Maj(x,y,z). -/
def majF (x y z : Nat) : Nat :=
  Nat.xor (Nat.land x y) (Nat.xor (Nat.land x z) (Nat.land y z))

/-- Big-endian bytes of a number, fixed width k. -/
def natToBytesBE : Nat → Nat → List Nat
  | 0, _ => []
  | k + 1, n => natToBytesBE k (n / 256) ++ [n % 256]

/-- SHA-256 message padding: append 0x80, zero bytes up to 56 mod 64, then
the bit length as 8 big-endian bytes. -/
def sha256Pad (msg : List Nat) : List Nat :=
  let r := (msg.length + 1) % 64
  msg ++ [128] ++ List.replicate ((120 - r) % 64) 0 ++ natToBytesBE 8 (msg.length * 8)

/-- Big-endian 32-bit words from bytes. -/
def bytesToWords : List Nat → List Nat
  | a :: b :: c :: d :: rest => (((a * 256 + b) * 256 + c) * 256 + d) :: bytesToWords rest
  | _ => []

/-- Worker splitting a byte list into 64-byte blocks; dropping 64 bytes
from a nonempty list shortens it, so fuel equal to the length never runs
out. -/
def chunks64Go : Nat → List Nat → List (List Nat)
  | _, [] => []
  | 0, _ :: _ => []
  | fuel + 1, a :: rest => ((a :: rest).take 64) :: chunks64Go fuel ((a :: rest).drop 64)

/-- Split a byte list into 64-byte blocks. -/
def chunks64 (l : List Nat) : List (List Nat) := chunks64Go l.length l

/-- Extension of the 16-word message schedule by the given number of
words. -/
def extendW (ws : Array Nat) : Nat → Array Nat
  | 0 => ws
  | fuel + 1 =>
      let i := ws.size
      let w := w32 (smallSigma1 (ws.getD (i - 2) 0) + ws.getD (i - 7) 0 +
        smallSigma0 (ws.getD (i - 15) 0) + ws.getD (i - 16) 0)
      extendW (ws.push w) fuel

/-- The eight 32-bit working variables of SHA-256. -/
structure H8 where
  a : Nat
  b : Nat
  c : Nat
  d : Nat
  e : Nat
  f : Nat
  g : Nat
  h : Nat
deriving DecidableEq

/-- One SHA-256 compression round; kw is the round constant plus the
schedule word. -/
def sha256Round (st : H8) (kw : Nat) : H8 :=
  let t1 := w32 (st.h + bigSigma1 st.e + chF st.e st.f st.g + kw)
  let t2 := w32 (bigSigma0 st.a + majF st.a st.b st.c)
  ⟨w32 (t1 + t2), st.a, st.b, st.c, w32 (st.d + t1), st.e, st.f, st.g⟩

/-- SHA-256 compression of one 64-byte block. -/
def sha256Compress (hs : H8) (block : List Nat) : H8 :=
  let ws := extendW (bytesToWords block).toArray 48
  let s := (List.zip sha256K ws.toList).foldl
    (fun st p => sha256Round st (w32 (p.1 + p.2))) hs
  ⟨w32 (hs.a + s.a), w32 (hs.b + s.b), w32 (hs.c + s.c), w32 (hs.d + s.d),
   w32 (hs.e + s.e), w32 (hs.f + s.f), w32 (hs.g + s.g), w32 (hs.h + s.h)⟩

/-- The SHA-256 initial hash value. -/
def sha256H0 : H8 :=
  ⟨1779033703, 3144134277, 1013904242, 2773480762,
   1359893119, 2600822924, 528734635, 1541459225⟩

/-- SHA-256 of a byte list, as 32 bytes. -/
def sha256 (msg : List Nat) : List Nat :=
  let hs := (chunks64 (sha256Pad msg)).foldl sha256Compress sha256H0
  natToBytesBE 4 hs.a ++ natToBytesBE 4 hs.b ++ natToBytesBE 4 hs.c ++
    natToBytesBE 4 hs.d ++ natToBytesBE 4 hs.e ++ natToBytesBE 4 hs.f ++
    natToBytesBE 4 hs.g ++ natToBytesBE 4 hs.h

/-- One lower-case hexadecimal digit. -/
def hexDigitChar (n : Nat) : Char :=
  if n < 10 then Char.ofNat (48 + n) else Char.ofNat (87 + n)

/-- Two lower-case hex digits of a byte. -/
def byteToHex (b : Nat) : List Char :=
  [hexDigitChar (b / 16 % 16), hexDigitChar (b % 16)]

/-- Lower-case hex rendering of a byte list (hashlib's hexdigest). -/
def bytesToHexStr (bs : List Nat) : String :=
  String.mk (bs.map byteToHex).flatten

/-- HMAC-SHA256 (RFC 2104), block size 64: what hmac.new(secret, body,
hashlib.sha256) computes.  Keys longer than the block are first hashed. -/
def hmacSha256 (key msg : List Nat) : List Nat :=
  let k0 := if 64 < key.length then sha256 key else key
  let kpad := k0 ++ List.replicate (64 - k0.length) 0
  sha256 ((kpad.map (fun b => Nat.xor b 92)) ++
    sha256 ((kpad.map (fun b => Nat.xor b 54)) ++ msg))

/-- The hex digest hmac.new(secret.encode, body, hashlib.sha256).hexdigest();
the secret is given as its UTF-8 bytes. -/
def hmacSha256Hex (key msg : List Nat) : String :=
  bytesToHexStr (hmacSha256 key msg)

/-- Is the string ASCII-only?  hmac.compare_digest accepts str arguments
only when both are ASCII-encodable. -/
def isAsciiStr (s : String) : Bool :=
  s.data.all (fun c => c.toNat ≤ 127)

/-- hmac.compare_digest on two str arguments: it raises TypeError (here
Except.error) when either side contains a non-ASCII character, and
otherwise performs a constant-time comparison whose value is plain
equality (the timing behaviour has no value-level content). -/
def compare_digest (a b : String) : Except Unit Bool :=
  if isAsciiStr a && isAsciiStr b then .ok (a == b) else .error ()

/-- verify_signature (main.py lines 107-114): computes the expected hex
digest and compares it with the supplied signature via
hmac.compare_digest; a TypeError raised there propagates, so the result is
either a boolean or an exception. -/
def verify_signature (secret body : List Nat) (signature : String) :
    Except Unit Bool :=
  compare_digest (hmacSha256Hex secret body) signature

/-- Equality of verification outcomes is decidable (used to evaluate the
embedding on concrete inputs). -/
instance : DecidableEq (Except Unit Bool) := fun x y =>
  match x, y with
  | .ok a, .ok b =>
      match decEq a b with
      | isTrue h => isTrue (h ▸ rfl)
      | isFalse h => isFalse (fun hc => h (Except.ok.inj hc))
  | .ok _, .error _ => isFalse (fun hc => Except.noConfusion hc)
  | .error _, .ok _ => isFalse (fun hc => Except.noConfusion hc)
  | .error a, .error b =>
      match decEq a b with
      | isTrue h => isTrue (h ▸ rfl)
      | isFalse h => isFalse (fun hc => h (Except.error.inj hc))

/-! ## Spec-side definitions (for refinement statements) -/

/-- Spec-side: does the pattern occur at the head of the text? -/
def headMatch : List Char → List Char → Bool
  | [], _ => true
  | _ :: _, [] => false
  | p :: ps, c :: cs => p == c && headMatch ps cs

/-- Spec-side: does the text contain the pattern as a contiguous
segment? -/
def segContains : List Char → List Char → Bool
  | p, [] => headMatch p []
  | p, c :: cs => headMatch p (c :: cs) || segContains p cs

/-- Spec-side, from the spec's words: case-insensitive substring match of
the query in the text (ASCII case folding). -/
def ciContains (q t : String) : Bool :=
  segContains (q.data.map lcChar) (t.data.map lcChar)

/-! ## Concrete tables and messages used by witnesses and counterexamples -/

/-- Eleven messages from eleven distinct senders. -/
def elevenSenderTbl : List Msg :=
  ["+1", "+2", "+3", "+4", "+5", "+6", "+7", "+8", "+9", "+10", "+11"].map
    (fun s => ⟨s, s, "+0", "2025-01-01T00:00:00Z", none, "c"⟩)

/-- A two-message table from one sender. -/
def statsWitnessTbl : List Msg :=
  [⟨"m1", "+15550001111", "+15550002222", "2025-01-01T00:00:00Z", some "a", "c1"⟩,
   ⟨"m2", "+15550001111", "+15550002222", "2025-01-02T00:00:00Z", none, "c2"⟩]

/-- A one-row table probed with out-of-range pagination values. -/
def outOfRangeTbl : List Msg :=
  [⟨"m1", "+1", "+2", "2025-01-01T00:00:00Z", some "x", "c"⟩]

/-- A message whose text aXb is matched by the pattern a_b through the
underscore wildcard. -/
def likeCexMsg : Msg :=
  ⟨"m1", "+1", "+2", "2025-01-01T00:00:00Z", some "aXb", "c"⟩

/-- A message with a mixed-case text for the substring filter. -/
def filterWitnessMsg : Msg :=
  ⟨"m1", "+15550001111", "+2", "2025-01-02T00:00:00Z", some "Hello World", "c"⟩

/-- Three messages with distinct timestamps. -/
def pagWitnessTbl : List Msg :=
  [⟨"m1", "+1", "+2", "2025-01-01T00:00:00Z", none, "c"⟩,
   ⟨"m2", "+1", "+2", "2025-01-02T00:00:00Z", none, "c"⟩,
   ⟨"m3", "+3", "+2", "2025-01-03T00:00:00Z", some "hi", "c"⟩]

/-! # Order facts about the TEXT collation -/

/-- Characters with equal code points are equal. -/
theorem charToNat_inj {c d : Char} (h : c.toNat = d.toNat) : c = d := by
  have hv : c.val = d.val := by
    apply UInt32.eq_of_toBitVec_eq
    apply BitVec.eq_of_toNat_eq
    exact h
  exact Char.eq_of_val_eq hv

/-- The collation comparison is reflexive. -/
theorem cmpChars_self (a : List Char) : cmpChars a a = .eq := by
  induction a with
  | nil => rfl
  | cons x xs ih => simp [cmpChars, ih]

/-- The collation comparison answers eq exactly on equal lists. -/
theorem cmpChars_eq_iff {a b : List Char} : cmpChars a b = .eq ↔ a = b := by
  induction a generalizing b with
  | nil => cases b <;> simp [cmpChars]
  | cons x xs ih =>
      cases b with
      | nil => simp [cmpChars]
      | cons y ys =>
          simp only [cmpChars, List.cons.injEq]
          split_ifs with h1 h2
          · constructor
            · intro h; simp at h
            · rintro ⟨rfl, -⟩; omega
          · constructor
            · intro h; simp at h
            · rintro ⟨rfl, -⟩; omega
          · have hxy : x = y := charToNat_inj (by omega)
            subst hxy
            simp [ih]

/-- Swapping the arguments swaps the comparison result. -/
theorem cmpChars_swap (a : List Char) : ∀ b, cmpChars b a = (cmpChars a b).swap := by
  induction a with
  | nil => intro b; cases b <;> rfl
  | cons x xs ih =>
      intro b
      cases b with
      | nil => rfl
      | cons y ys =>
          simp only [cmpChars]
          split_ifs with h1 h2 h3 <;>
            first
              | rfl
              | omega
              | (exact ih ys)

/-- Head characterisation of a lt comparison. -/
theorem cmpChars_cons_lt {x y : Char} {xs ys : List Char} :
    cmpChars (x :: xs) (y :: ys) = .lt ↔
      x.toNat < y.toNat ∨ (x.toNat = y.toNat ∧ cmpChars xs ys = .lt) := by
  simp only [cmpChars]
  split_ifs with h1 h2
  · simp [h1]
  · constructor
    · intro h; simp at h
    · rintro (h | ⟨h, -⟩) <;> omega
  · constructor
    · intro h; exact Or.inr ⟨by omega, h⟩
    · rintro (h | ⟨-, h⟩)
      · omega
      · exact h

/-- Head characterisation of a gt comparison. -/
theorem cmpChars_cons_gt {x y : Char} {xs ys : List Char} :
    cmpChars (x :: xs) (y :: ys) = .gt ↔
      y.toNat < x.toNat ∨ (x.toNat = y.toNat ∧ cmpChars xs ys = .gt) := by
  simp only [cmpChars]
  split_ifs with h1 h2
  · constructor
    · intro h; simp at h
    · rintro (h | ⟨h, -⟩) <;> omega
  · simp [h2]
  · constructor
    · intro h; exact Or.inr ⟨by omega, h⟩
    · rintro (h | ⟨-, h⟩)
      · omega
      · exact h

/-- Transitivity of the strict collation order. -/
theorem cmpChars_lt_trans {a : List Char} : ∀ {b c : List Char},
    cmpChars a b = .lt → cmpChars b c = .lt → cmpChars a c = .lt := by
  induction a with
  | nil =>
      intro b c hab hbc
      cases b with
      | nil => simp [cmpChars] at hab
      | cons y ys =>
          cases c with
          | nil => simp [cmpChars] at hbc
          | cons z zs => simp [cmpChars]
  | cons x xs ih =>
      intro b c hab hbc
      cases b with
      | nil => simp [cmpChars] at hab
      | cons y ys =>
          cases c with
          | nil => simp [cmpChars] at hbc
          | cons z zs =>
              rw [cmpChars_cons_lt] at hab hbc ⊢
              rcases hab with h | ⟨h, hr⟩
              · rcases hbc with h' | ⟨h', -⟩ <;> exact Or.inl (by omega)
              · rcases hbc with h' | ⟨h', hr'⟩
                · exact Or.inl (by omega)
                · exact Or.inr ⟨by omega, ih hr hr'⟩

/-- Transitivity of the weak collation order. -/
theorem cmpChars_le_trans {a : List Char} : ∀ {b c : List Char},
    cmpChars a b ≠ .gt → cmpChars b c ≠ .gt → cmpChars a c ≠ .gt := by
  induction a with
  | nil =>
      intro b c hab hbc
      cases c with
      | nil => simp [cmpChars]
      | cons z zs => simp [cmpChars]
  | cons x xs ih =>
      intro b c hab hbc
      cases b with
      | nil => simp [cmpChars] at hab
      | cons y ys =>
          cases c with
          | nil => simp [cmpChars] at hbc
          | cons z zs =>
              rw [Ne, cmpChars_cons_gt] at hab hbc ⊢
              push_neg at hab hbc ⊢
              refine ⟨by omega, fun he => ?_⟩
              exact ih (hab.2 (by omega)) (hbc.2 (by omega))

/-- Boolean equality of comparison results is propositional equality. -/
theorem ordBeq_iff {o p : Ordering} : (o == p) = true ↔ o = p := by
  cases o <;> cases p <;> decide

/-- strLtb holds exactly when the comparison answers lt. -/
theorem strLtb_iff {a b : String} : strLtb a b = true ↔ strCmp a b = .lt := by
  simp [strLtb, ordBeq_iff]

/-- strLeb holds exactly when the comparison does not answer gt. -/
theorem strLeb_iff {a b : String} : strLeb a b = true ↔ strCmp a b ≠ .gt := by
  unfold strLeb
  cases h : strCmp a b <;> decide

/-- An eq comparison means the strings are equal. -/
theorem strCmp_eq_iff {a b : String} : strCmp a b = .eq ↔ a = b := by
  unfold strCmp
  rw [cmpChars_eq_iff]
  exact ⟨String.ext, fun h => by rw [h]⟩

/-- Swapping the arguments swaps the string comparison. -/
theorem strCmp_swap (a b : String) : strCmp b a = (strCmp a b).swap :=
  cmpChars_swap a.data b.data

/-- The TEXT order is reflexive. -/
theorem strLeb_refl (a : String) : strLeb a a = true := by
  rw [strLeb_iff]
  unfold strCmp
  rw [cmpChars_self]
  decide

/-- The TEXT order is total. -/
theorem strLeb_total (a b : String) : strLeb a b = true ∨ strLeb b a = true := by
  cases h : strCmp a b
  · left; rw [strLeb_iff, h]; decide
  · left; rw [strLeb_iff, h]; decide
  · right; rw [strLeb_iff, strCmp_swap a b, h]; decide

/-- The TEXT order is transitive. -/
theorem strLeb_trans {a b c : String} (h1 : strLeb a b = true)
    (h2 : strLeb b c = true) : strLeb a c = true := by
  rw [strLeb_iff] at h1 h2 ⊢
  exact cmpChars_le_trans h1 h2

/-- The strict TEXT order is transitive. -/
theorem strLtb_trans {a b c : String} (h1 : strLtb a b = true)
    (h2 : strLtb b c = true) : strLtb a c = true := by
  rw [strLtb_iff] at h1 h2 ⊢
  exact cmpChars_lt_trans h1 h2

/-- A strict comparison implies the weak one. -/
theorem strLtb_to_strLeb {a b : String} (h : strLtb a b = true) :
    strLeb a b = true := by
  rw [strLtb_iff] at h
  rw [strLeb_iff, h]
  decide

/-- If a is not strictly below b then b is weakly below a. -/
theorem strLeb_of_not_strLtb {a b : String} (h : strLtb a b = false) :
    strLeb b a = true := by
  rw [strLeb_iff, strCmp_swap a b]
  cases hc : strCmp a b
  · have hlt : strLtb a b = true := by rw [strLtb_iff]; exact hc
    rw [h] at hlt
    exact Bool.noConfusion hlt
  · decide
  · decide

/-- The sort key of get_messages, unfolded to its two components. -/
theorem msgLeb_iff {a b : Msg} :
    msgLeb a b = true ↔
      (strLtb a.ts b.ts = true ∨
        (a.ts = b.ts ∧ strLeb a.message_id b.message_id = true)) := by
  simp [msgLeb, Bool.or_eq_true, Bool.and_eq_true, beq_iff_eq]

/-- The sort key order is total. -/
theorem msgLeb_total (a b : Msg) : msgLeb a b = true ∨ msgLeb b a = true := by
  rw [msgLeb_iff, msgLeb_iff]
  cases h : strCmp a.ts b.ts
  · left; left; rw [strLtb_iff]; exact h
  · have heq : a.ts = b.ts := strCmp_eq_iff.mp h
    rcases strLeb_total a.message_id b.message_id with hm | hm
    · left; right; exact ⟨heq, hm⟩
    · right; right; exact ⟨heq.symm, hm⟩
  · right; left; rw [strLtb_iff, strCmp_swap a.ts b.ts, h]; rfl

/-- The sort key order is transitive. -/
theorem msgLeb_trans (a b c : Msg) (h1 : msgLeb a b = true)
    (h2 : msgLeb b c = true) : msgLeb a c = true := by
  rw [msgLeb_iff] at h1 h2 ⊢
  rcases h1 with h1 | ⟨e1, m1⟩
  · rcases h2 with h2 | ⟨e2, m2⟩
    · exact Or.inl (strLtb_trans h1 h2)
    · exact Or.inl (by rw [← e2]; exact h1)
  · rcases h2 with h2 | ⟨e2, m2⟩
    · exact Or.inl (by rw [e1]; exact h2)
    · exact Or.inr ⟨e1.trans e2, strLeb_trans m1 m2⟩

/-! # Helper lemmas about the store operations -/

/-- Two booleans agreeing as propositions are equal. -/
theorem bool_eq_of_iff {a b : Bool} (h : a = true ↔ b = true) : a = b := by
  cases a <;> cases b <;> simp_all

/-- A table without the key has no row surviving the key filter. -/
theorem filter_messageId_nil {tbl : List Msg} {mid : String}
    (h : hasMessageId tbl mid = false) :
    tbl.filter (fun m => m.message_id == mid) = [] := by
  rw [List.filter_eq_nil_iff]
  exact List.any_eq_false.mp h

/-- Key lookup distributes over appending a row. -/
theorem hasMessageId_append (tbl : List Msg) (m : Msg) (mid : String) :
    hasMessageId (tbl ++ [m]) mid
      = (hasMessageId tbl mid || (m.message_id == mid)) := by
  simp [hasMessageId, List.any_append]

/-- The MIN scan started from a value returns a value weakly below the
start and below every scanned element. -/
theorem minTs_go (l : List String) : ∀ acc : String,
    ∃ m, l.foldl minStep (some acc) = some m ∧ strLeb m acc = true ∧
      ∀ x ∈ l, strLeb m x = true := by
  induction l with
  | nil => exact fun acc => ⟨acc, rfl, strLeb_refl acc, by simp⟩
  | cons y ys ih =>
      intro acc
      obtain ⟨m, hm, hacc, hall⟩ := ih (if strLtb y acc then y else acc)
      have hstep : (y :: ys).foldl minStep (some acc) = some m := by
        simpa [minStep] using hm
      have hacc' : strLeb m acc = true ∧ strLeb m y = true := by
        by_cases hlt : strLtb y acc = true
        · rw [if_pos hlt] at hacc
          exact ⟨strLeb_trans hacc (strLtb_to_strLeb hlt), hacc⟩
        · rw [if_neg hlt] at hacc
          have hya : strLeb acc y = true :=
            strLeb_of_not_strLtb (Bool.not_eq_true _ ▸ hlt)
          exact ⟨hacc, strLeb_trans hacc hya⟩
      refine ⟨m, hstep, hacc'.1, ?_⟩
      intro x hx
      rcases List.mem_cons.mp hx with rfl | hx'
      · exact hacc'.2
      · exact hall x hx'

/-- A nonempty MIN scan returns a lower bound of the scanned list. -/
theorem minTs_spec {l : List String} (h : l ≠ []) :
    ∃ m, minTs l = some m ∧ ∀ x ∈ l, strLeb m x = true := by
  cases l with
  | nil => exact absurd rfl h
  | cons y ys =>
      obtain ⟨m, hm, hacc, hall⟩ := minTs_go ys y
      refine ⟨m, by simpa [minTs, minStep] using hm, ?_⟩
      intro x hx
      rcases List.mem_cons.mp hx with rfl | hx'
      · exact hacc
      · exact hall x hx'

/-- The MAX scan started from a value returns the start or a scanned
element. -/
theorem maxTs_go (l : List String) : ∀ acc : String,
    ∃ m, l.foldl maxStep (some acc) = some m ∧ (m = acc ∨ m ∈ l) := by
  induction l with
  | nil => exact fun acc => ⟨acc, rfl, Or.inl rfl⟩
  | cons y ys ih =>
      intro acc
      obtain ⟨m, hm, hmem⟩ := ih (if strLtb acc y then y else acc)
      refine ⟨m, by simpa [maxStep] using hm, ?_⟩
      rcases hmem with heq | hmem
      · by_cases hlt : strLtb acc y = true
        · rw [if_pos hlt] at heq
          exact Or.inr (heq ▸ List.mem_cons_self y ys)
        · rw [if_neg hlt] at heq
          exact Or.inl heq
      · exact Or.inr (List.mem_cons_of_mem y hmem)

/-- A nonempty MAX scan returns an element of the scanned list. -/
theorem maxTs_spec {l : List String} (h : l ≠ []) :
    ∃ m, maxTs l = some m ∧ m ∈ l := by
  cases l with
  | nil => exact absurd rfl h
  | cons y ys =>
      obtain ⟨m, hm, hmem⟩ := maxTs_go ys y
      refine ⟨m, by simpa [maxTs, maxStep] using hm, ?_⟩
      rcases hmem with rfl | hmem
      · exact List.mem_cons_self m ys
      · exact List.mem_cons_of_mem y hmem

/-! # Helper lemmas about LIKE matching -/

/-- One-step unfolding of the worker on a leading percent. -/
theorem likeGo_succ_pct (f : Nat) (ps s : List Char) :
    likeGo (f + 1) ('%' :: ps) s
      = (likeGo f ps s ||
          (match s with
           | [] => false
           | _ :: s1 => likeGo f ('%' :: ps) s1)) := by
  simp [likeGo]

/-- One-step unfolding of the worker on an ordinary character and empty
text. -/
theorem likeGo_succ_plain_nil (f : Nat) (p0 : Char) (ps : List Char)
    (h : p0 ≠ '%') : likeGo (f + 1) (p0 :: ps) [] = false := by
  simp [likeGo, h]

/-- One-step unfolding of the worker on an ordinary character and nonempty
text. -/
theorem likeGo_succ_plain_cons (f : Nat) (p0 : Char) (ps : List Char)
    (c : Char) (s1 : List Char) (h : p0 ≠ '%') :
    likeGo (f + 1) (p0 :: ps) (c :: s1)
      = ((if p0 = '_' then true else lcChar p0 == lcChar c) &&
          likeGo f ps s1) := by
  simp [likeGo, h]

/-- The fuel of the LIKE worker is irrelevant above the combined length. -/
theorem likeGo_congr : ∀ (f1 f2 : Nat) (p s : List Char),
    p.length + s.length < f1 → p.length + s.length < f2 →
    likeGo f1 p s = likeGo f2 p s := by
  intro f1
  induction f1 with
  | zero => intro f2 p s h1 h2; exact absurd h1 (Nat.not_lt_zero _)
  | succ f1 ih =>
      intro f2 p s h1 h2
      cases f2 with
      | zero => exact absurd h2 (Nat.not_lt_zero _)
      | succ f2 =>
          cases p with
          | nil => rfl
          | cons p0 ps =>
              simp only [List.length_cons] at h1 h2
              by_cases hp : p0 = '%'
              · subst hp
                rw [likeGo_succ_pct, likeGo_succ_pct]
                have e1 : likeGo f1 ps s = likeGo f2 ps s :=
                  ih f2 ps s (by omega) (by omega)
                cases s with
                | nil => simp [e1]
                | cons c s1 =>
                    simp only [List.length_cons] at h1 h2
                    have e2 : likeGo f1 ('%' :: ps) s1
                        = likeGo f2 ('%' :: ps) s1 :=
                      ih f2 ('%' :: ps) s1 (by simp; omega) (by simp; omega)
                    simp [e1, e2]
              · cases s with
                | nil => rw [likeGo_succ_plain_nil f1 _ _ hp,
                    likeGo_succ_plain_nil f2 _ _ hp]
                | cons c s1 =>
                    simp only [List.length_cons] at h1 h2
                    rw [likeGo_succ_plain_cons f1 _ _ _ _ hp,
                      likeGo_succ_plain_cons f2 _ _ _ _ hp]
                    have e3 : likeGo f1 ps s1 = likeGo f2 ps s1 :=
                      ih f2 ps s1 (by omega) (by omega)
                    rw [e3]

/-- Unfolding of a leading percent against the empty text. -/
theorem likeMatch_pct_nil (ps : List Char) :
    likeMatch ('%' :: ps) [] = likeMatch ps [] := by
  unfold likeMatch
  rw [likeGo_succ_pct]
  rw [Bool.or_false]
  exact likeGo_congr _ _ ps [] (by simp) (by simp)

/-- Unfolding of a leading percent against a nonempty text. -/
theorem likeMatch_pct_cons (ps : List Char) (c : Char) (t : List Char) :
    likeMatch ('%' :: ps) (c :: t)
      = (likeMatch ps (c :: t) || likeMatch ('%' :: ps) t) := by
  unfold likeMatch
  rw [likeGo_succ_pct]
  have e1 : likeGo (('%' :: ps).length + (c :: t).length) ps (c :: t)
      = likeGo (ps.length + (c :: t).length + 1) ps (c :: t) :=
    likeGo_congr _ _ _ _ (by simp) (by simp)
  have e2 : likeGo (('%' :: ps).length + (c :: t).length) ('%' :: ps) t
      = likeGo (('%' :: ps).length + t.length + 1) ('%' :: ps) t :=
    likeGo_congr _ _ _ _ (by simp) (by simp)
  simp only [e1, e2]

/-- Unfolding of an ordinary pattern character against the empty text. -/
theorem likeMatch_plain_nil (p0 : Char) (ps : List Char) (h : p0 ≠ '%') :
    likeMatch (p0 :: ps) [] = false := by
  unfold likeMatch
  exact likeGo_succ_plain_nil _ p0 ps h

/-- Unfolding of an ordinary pattern character against a nonempty text. -/
theorem likeMatch_plain_cons (p0 : Char) (ps : List Char) (c : Char)
    (s1 : List Char) (h : p0 ≠ '%') :
    likeMatch (p0 :: ps) (c :: s1)
      = ((if p0 = '_' then true else lcChar p0 == lcChar c) &&
          likeMatch ps s1) := by
  unfold likeMatch
  rw [likeGo_succ_plain_cons _ _ _ _ _ h]
  have e : likeGo ((p0 :: ps).length + (c :: s1).length) ps s1
      = likeGo (ps.length + s1.length + 1) ps s1 :=
    likeGo_congr _ _ _ _ (by simp; omega) (by simp)
  rw [e]

/-- A leading percent matches exactly when the rest of the pattern matches
some suffix of the text. -/
theorem likeMatch_pct (ps : List Char) (t : List Char) :
    likeMatch ('%' :: ps) t = true ↔ ∃ k, likeMatch ps (t.drop k) = true := by
  induction t with
  | nil =>
      rw [likeMatch_pct_nil]
      constructor
      · exact fun h => ⟨0, h⟩
      · rintro ⟨k, h⟩; simpa using h
  | cons c t1 ih =>
      rw [likeMatch_pct_cons, Bool.or_eq_true, ih]
      constructor
      · rintro (h | ⟨k, h⟩)
        · exact ⟨0, h⟩
        · exact ⟨k + 1, h⟩
      · rintro ⟨k, h⟩
        cases k with
        | zero => exact Or.inl h
        | succ k => exact Or.inr ⟨k, h⟩

/-- The bare percent pattern matches every text. -/
theorem likeMatch_pct_only (t : List Char) : likeMatch ['%'] t = true := by
  induction t with
  | nil => decide
  | cons c t1 ih => rw [likeMatch_pct_cons]; simp [ih]

/-- A wildcard-free pattern followed by a percent matches exactly the texts
starting with the pattern, ASCII-case-insensitively. -/
theorem likeMatch_plain (p : List Char) (hp : ∀ c ∈ p, c ≠ '%' ∧ c ≠ '_') :
    ∀ t : List Char,
      likeMatch (p ++ ['%']) t = headMatch (p.map lcChar) (t.map lcChar) := by
  induction p with
  | nil => intro t; simp [likeMatch_pct_only t, headMatch]
  | cons a p1 ih =>
      intro t
      have ha := hp a (List.mem_cons_self a p1)
      cases t with
      | nil =>
          rw [List.cons_append, likeMatch_plain_nil _ _ ha.1]
          simp [headMatch]
      | cons c t1 =>
          have ih1 := ih (fun c hc => hp c (List.mem_cons_of_mem a hc)) t1
          rw [List.cons_append, likeMatch_plain_cons _ _ _ _ ha.1,
            if_neg ha.2, ih1]
          simp [headMatch]

/-- Spec-side: segment containment is head matching at some suffix. -/
theorem segContains_iff (p : List Char) (t : List Char) :
    segContains p t = true ↔ ∃ k, headMatch p (t.drop k) = true := by
  induction t with
  | nil =>
      simp only [segContains]
      constructor
      · exact fun h => ⟨0, h⟩
      · rintro ⟨k, h⟩; simpa using h
  | cons c t1 ih =>
      simp only [segContains, Bool.or_eq_true, ih]
      constructor
      · rintro (h | ⟨k, h⟩)
        · exact ⟨0, h⟩
        · exact ⟨k + 1, h⟩
      · rintro ⟨k, h⟩
        cases k with
        | zero => exact Or.inl h
        | succ k => exact Or.inr ⟨k, h⟩

/-- The percent-wrapped LIKE pattern built from a wildcard-free query is
ASCII-case-insensitive substring containment. -/
theorem likeMatch_wrapped (q t : List Char)
    (hq : ∀ c ∈ q, c ≠ '%' ∧ c ≠ '_') :
    likeMatch ('%' :: (q ++ ['%'])) t
      = segContains (q.map lcChar) (t.map lcChar) := by
  apply bool_eq_of_iff
  rw [likeMatch_pct, segContains_iff]
  constructor
  · rintro ⟨k, h⟩
    rw [likeMatch_plain q hq] at h
    exact ⟨k, by rwa [List.map_drop] at h⟩
  · rintro ⟨k, h⟩
    refine ⟨k, ?_⟩
    rw [likeMatch_plain q hq, List.map_drop]
    exact h

/-! # Helper lemmas about the metrics collector -/

/-- Folding a sequence of observations adds each observation to the sum,
counts them, and adds to every bucket the number of observations below its
boundary. -/
theorem foldl_observe (xs : List ℚ) : ∀ st : MetricsState,
    (xs.foldl observe_latency st).latency_counts
      = st.latency_counts.map
          (fun e => (e.1, e.2 + xs.countP (fun x => leBoundary x e.1))) ∧
    (xs.foldl observe_latency st).latency_sum = st.latency_sum + xs.sum ∧
    (xs.foldl observe_latency st).latency_count
      = st.latency_count + xs.length := by
  induction xs with
  | nil => intro st; simp
  | cons x xs ih =>
      intro st
      obtain ⟨h1, h2, h3⟩ := ih (observe_latency st x)
      refine ⟨?_, ?_, ?_⟩
      · rw [List.foldl_cons, h1]
        have hc : (observe_latency st x).latency_counts
            = st.latency_counts.map
                (fun e => if leBoundary x e.1 then (e.1, e.2 + 1) else e) := rfl
        rw [hc, List.map_map]
        apply List.map_congr_left
        intro e he
        by_cases hle : leBoundary x e.1 = true
        · simp [Function.comp, hle, List.countP_cons, Prod.ext_iff]
          omega
        · simp [Function.comp, hle, List.countP_cons]
      · rw [List.foldl_cons, h2]
        have hs : (observe_latency st x).latency_sum = st.latency_sum + x := rfl
        rw [hs, List.sum_cons]
        ring
      · rw [List.foldl_cons, h3]
        have hc : (observe_latency st x).latency_count = st.latency_count + 1 := rfl
        rw [hc, List.length_cons]
        omega

/-! # Helper lemmas about the digest encoding -/

/-- Fixed-width big-endian encoding has the requested width. -/
theorem natToBytesBE_length (k : Nat) : ∀ n, (natToBytesBE k n).length = k := by
  induction k with
  | zero => intro n; rfl
  | succ k ih => intro n; simp [natToBytesBE, ih]

/-- A SHA-256 digest is 32 bytes. -/
theorem sha256_length (msg : List Nat) : (sha256 msg).length = 32 := by
  simp [sha256, natToBytesBE_length]

/-- Hex rendering doubles the length. -/
theorem hexFlatten_length (bs : List Nat) :
    ((bs.map byteToHex).flatten).length = 2 * bs.length := by
  induction bs with
  | nil => rfl
  | cons b bs ih =>
      simp only [List.map_cons, List.flatten_cons, List.length_append, ih,
        byteToHex, List.length_cons, List.length_nil, List.length_cons]
      omega

/-- The hex string of a byte list has twice as many characters. -/
theorem bytesToHexStr_length (bs : List Nat) :
    (bytesToHexStr bs).length = 2 * bs.length :=
  hexFlatten_length bs

/-- An HMAC-SHA256 hex digest is never the empty string. -/
theorem hmacSha256Hex_ne_empty (k m : List Nat) : hmacSha256Hex k m ≠ "" := by
  intro h
  have hl : (hmacSha256Hex k m).length = 64 := by
    simp [hmacSha256Hex, hmacSha256, bytesToHexStr_length, sha256_length]
  rw [h] at hl
  exact absurd hl (by decide)

/-- Hexadecimal digit characters are ASCII. -/
theorem hexDigitChar_ascii (n : Nat) (h : n < 16) :
    (hexDigitChar n).toNat ≤ 127 := by
  interval_cases n <;> decide

/-- The hex rendering of a byte list is an ASCII-only string. -/
theorem bytesToHexStr_ascii (bs : List Nat) :
    isAsciiStr (bytesToHexStr bs) = true := by
  show ((bs.map byteToHex).flatten).all (fun c => decide (c.toNat ≤ 127))
    = true
  induction bs with
  | nil => rfl
  | cons b bs ih =>
      have ih1 : ((bs.map byteToHex).flatten).all
          (fun c => decide (c.toNat ≤ 127)) = true := ih
      rw [List.map_cons, List.flatten_cons, List.all_append, ih1,
        Bool.and_true]
      have h1 := hexDigitChar_ascii (b / 16 % 16) (Nat.mod_lt _ (by omega))
      have h2 := hexDigitChar_ascii (b % 16) (Nat.mod_lt _ (by omega))
      simp [byteToHex, h1, h2]

/-- An HMAC-SHA256 hex digest is an ASCII-only string. -/
theorem hmacSha256Hex_ascii (k m : List Nat) :
    isAsciiStr (hmacSha256Hex k m) = true :=
  bytesToHexStr_ascii (hmacSha256 k m)

/-! # Claim theorems -/

/-- Paging of the unpaged (limit -1, offset 0) list: membership in the
returned page is membership in the table together with the filters. -/
theorem mem_get_messages_unpaged (tbl : List Msg) (fa sa qa : Option String)
    (m : Msg) :
    m ∈ (get_messages tbl (-1) 0 fa sa qa).1 ↔
      m ∈ tbl ∧ matchesFilters fa sa qa m = true := by
  have hpage : (get_messages tbl (-1) 0 fa sa qa).1
      = sortMsgs (tbl.filter (matchesFilters fa sa qa)) := by
    simp [get_messages, sqlLimit, sqlOffset]
  rw [hpage]
  unfold sortMsgs
  rw [(List.perm_insertionSort _ _).mem_iff, List.mem_filter]

/-- C1 (confirmed).  Idempotent insert: inserting a fresh valid message
succeeds with is_duplicate = false; inserting it again succeeds with
is_duplicate = true, leaves the table unchanged, and exactly one row with
that message_id is stored, all of its fields those of the first call. -/
theorem insert_message_idempotent (tbl : List Msg) (mid f t ts : String)
    (text : Option String) (c1 c2 : String)
    (hfresh : hasMessageId tbl mid = false) :
    (insert_message tbl mid (some f) (some t) (some ts) text c1).2.1 = true ∧
    (insert_message tbl mid (some f) (some t) (some ts) text c1).2.2 = false ∧
    (insert_message
        (insert_message tbl mid (some f) (some t) (some ts) text c1).1
        mid (some f) (some t) (some ts) text c2).2.1 = true ∧
    (insert_message
        (insert_message tbl mid (some f) (some t) (some ts) text c1).1
        mid (some f) (some t) (some ts) text c2).2.2 = true ∧
    (insert_message
        (insert_message tbl mid (some f) (some t) (some ts) text c1).1
        mid (some f) (some t) (some ts) text c2).1
      = (insert_message tbl mid (some f) (some t) (some ts) text c1).1 ∧
    ((insert_message
        (insert_message tbl mid (some f) (some t) (some ts) text c1).1
        mid (some f) (some t) (some ts) text c2).1.filter
          (fun m => m.message_id == mid))
      = [⟨mid, f, t, ts, text, c1⟩] := by
  have h1 : insert_message tbl mid (some f) (some t) (some ts) text c1
      = (tbl ++ [⟨mid, f, t, ts, text, c1⟩], true, false) := by
    simp [insert_message, hfresh]
  have hdup : hasMessageId (tbl ++ [⟨mid, f, t, ts, text, c1⟩]) mid = true := by
    rw [hasMessageId_append, hfresh]
    simp
  have h2 : insert_message (tbl ++ [⟨mid, f, t, ts, text, c1⟩])
      mid (some f) (some t) (some ts) text c2
      = (tbl ++ [⟨mid, f, t, ts, text, c1⟩], true, true) := by
    simp [insert_message, hdup]
  have hfil : (tbl ++ [(⟨mid, f, t, ts, text, c1⟩ : Msg)]).filter
      (fun m => m.message_id == mid) = [⟨mid, f, t, ts, text, c1⟩] := by
    rw [List.filter_append, filter_messageId_nil hfresh]
    simp
  refine ⟨?_, ?_, ?_, ?_, ?_, ?_⟩ <;> simp [h1, h2, hfil]

/-- C1 witness: the double insert evaluated on a concrete message starting
from the empty table. -/
theorem insert_message_idempotent_witness :
    ((insert_message
        (insert_message [] "m1" (some "+15550001111") (some "+15550002222")
          (some "2025-01-15T10:00:00Z") (some "hi") "ca").1
        "m1" (some "+15550001111") (some "+15550002222")
        (some "2025-01-15T10:00:00Z") (some "hi") "cb").1.filter
          (fun m => m.message_id == "m1"))
      = [⟨"m1", "+15550001111", "+15550002222", "2025-01-15T10:00:00Z",
          some "hi", "ca"⟩] :=
  (insert_message_idempotent [] "m1" "+15550001111" "+15550002222"
    "2025-01-15T10:00:00Z" (some "hi") "ca" "cb" (by decide)).2.2.2.2.2

set_option maxRecDepth 1000000 in
/-- C2 counterexample: hmac.compare_digest raises TypeError on a non-ASCII
str argument, and the X-Signature header can carry one (a latin-1 byte at
or above 0x80), so verify_signature throws on that signature instead of
returning false, refuting the never-throws part of the claim. -/
theorem verify_signature_throws_cex :
    verify_signature [115, 101, 99] [98, 111, 100, 121] "\u00e9"
      = .error () ∧
    "\u00e9" ≠ hmacSha256Hex [115, 101, 99] [98, 111, 100, 121] := by
  decide

/-- C2 (corrected).  Signature correctness: the digest of the body under
the secret verifies; the empty signature is rejected; every ASCII string
other than the digest is rejected without an exception; a signature
containing a non-ASCII character makes compare_digest raise, so
verify_signature throws instead of returning false. -/
theorem verify_signature_correct (S B : List Nat) (sig : String) :
    verify_signature S B (hmacSha256Hex S B) = .ok true ∧
    verify_signature S B "" = .ok false ∧
    (isAsciiStr sig = true → sig ≠ hmacSha256Hex S B →
      verify_signature S B sig = .ok false) ∧
    (isAsciiStr sig = false → verify_signature S B sig = .error ()) := by
  have hd := hmacSha256Hex_ascii S B
  refine ⟨?_, ?_, ?_, ?_⟩
  · show compare_digest _ _ = _
    unfold compare_digest
    rw [hd]
    simp
  · show compare_digest _ _ = _
    unfold compare_digest
    rw [hd]
    have he : isAsciiStr "" = true := rfl
    rw [he]
    have hne : (hmacSha256Hex S B == "") = false :=
      beq_eq_false_iff_ne.mpr (hmacSha256Hex_ne_empty S B)
    rw [hne]
    simp
  · intro hsig hne
    show compare_digest _ _ = _
    unfold compare_digest
    rw [hd, hsig]
    have hb : (hmacSha256Hex S B == sig) = false :=
      beq_eq_false_iff_ne.mpr (fun e => hne e.symm)
    rw [hb]
    simp
  · intro hsig
    show compare_digest _ _ = _
    unfold compare_digest
    rw [hd, hsig]
    simp

set_option maxRecDepth 1000000 in
/-- C2 witness: a wrong ASCII signature for a concrete byte secret and
body is rejected with false, not an exception. -/
theorem verify_signature_correct_witness :
    verify_signature [115, 101, 99] [98, 111, 100, 121] "deadbeef"
      = .ok false :=
  (verify_signature_correct [115, 101, 99] [98, 111, 100, 121]
    "deadbeef").2.2.1 (by decide) (by decide)

/-- C3 (confirmed).  Ordering: every page returned by get_messages is
sorted ascending by the pair (ts, message_id) under the TEXT collation,
ties on ts broken by message_id; the result is a function of its inputs,
hence deterministic. -/
theorem get_messages_sorted (tbl : List Msg) (limit offset : Int)
    (from_filter since q : Option String) :
    List.Sorted
      (fun a b : Msg =>
        strLtb a.ts b.ts = true ∨
          (a.ts = b.ts ∧ strLeb a.message_id b.message_id = true))
      (get_messages tbl limit offset from_filter since q).1 := by
  have hsorted : List.Sorted (fun a b : Msg => msgLeb a b = true)
      (sortMsgs (tbl.filter (matchesFilters from_filter since q))) := by
    haveI h1 : IsTotal Msg (fun a b : Msg => msgLeb a b = true) := ⟨msgLeb_total⟩
    haveI h2 : IsTrans Msg (fun a b : Msg => msgLeb a b = true) := ⟨msgLeb_trans⟩
    exact List.sorted_insertionSort _ _
  have hsub : ((get_messages tbl limit offset from_filter since q).1).Sublist
      (sortMsgs (tbl.filter (matchesFilters from_filter since q))) := by
    simp only [get_messages, sqlLimit, sqlOffset]
    split
    · exact List.drop_sublist _ _
    · exact (List.take_sublist _ _).trans (List.drop_sublist _ _)
  exact (List.Pairwise.sublist hsub hsorted).imp (fun hab => msgLeb_iff.mp hab)

/-- C4 (confirmed).  Pagination invariant: total equals the filtered row
count before pagination (hence is independent of limit and offset), and
for an in-range limit and offset the page length is
min(limit, total - offset), which is 0 when offset >= total. -/
theorem get_messages_pagination (tbl : List Msg)
    (limit offset limit2 offset2 : Int) (from_filter since q : Option String)
    (hl1 : 1 ≤ limit) (hl2 : limit ≤ 100) (ho : 0 ≤ offset) :
    (get_messages tbl limit offset from_filter since q).2
      = (tbl.filter (matchesFilters from_filter since q)).length ∧
    (get_messages tbl limit offset from_filter since q).2
      = (get_messages tbl limit2 offset2 from_filter since q).2 ∧
    ((get_messages tbl limit offset from_filter since q).1).length
      = min limit.toNat
          ((get_messages tbl limit offset from_filter since q).2
            - offset.toNat) := by
  refine ⟨rfl, rfl, ?_⟩
  have hlen : (sortMsgs (tbl.filter (matchesFilters from_filter since q))).length
      = (tbl.filter (matchesFilters from_filter since q)).length :=
    (List.perm_insertionSort _ _).length_eq
  simp only [get_messages, sqlLimit, sqlOffset]
  rw [if_neg (by omega)]
  rw [List.length_take, List.length_drop, hlen]

/-- C4 witness: three stored messages, limit 2, offset 2: the total is 3
and the page has min(2, 3 - 2) = 1 item. -/
theorem get_messages_pagination_witness :
    (get_messages pagWitnessTbl 2 2 none none none).2 = 3 ∧
    ((get_messages pagWitnessTbl 2 2 none none none).1).length = 1 := by
  have h := get_messages_pagination pagWitnessTbl 2 2 5 1 none none none
    (by decide) (by decide) (by decide)
  exact ⟨h.1.trans (by decide), h.2.2.trans (by decide)⟩

set_option maxRecDepth 100000 in
/-- C5 counterexample: with eleven distinct senders the stored top-10 list
sums to 10 while eleven messages are stored, so the counts do not sum to
total_messages. -/
theorem get_stats_sum_cex :
    ((get_stats elevenSenderTbl).messages_per_sender.map (fun p => p.2)).sum
        = 10 ∧
    (get_stats elevenSenderTbl).total_messages = 11 := by decide

/-- C5 (corrected).  Stats correctness: senders_count is the number of
distinct senders; the messages_per_sender counts sum to total_messages
whenever at most 10 distinct senders exist (the query keeps only the top
10 rows, so with more senders the sum falls short); at most 10 entries are
returned; both timestamps are null on an empty store; on a nonempty store
first_message_ts is weakly below last_message_ts in the TEXT collation. -/
theorem get_stats_correct (tbl : List Msg) :
    (get_stats tbl).total_messages = tbl.length ∧
    (get_stats tbl).senders_count = (tbl.map Msg.from_msisdn).toFinset.card ∧
    ((sendersDedup tbl).length ≤ 10 →
      (((get_stats tbl).messages_per_sender.map (fun p => p.2)).sum
        = (get_stats tbl).total_messages)) ∧
    (get_stats tbl).messages_per_sender.length ≤ 10 ∧
    (tbl = [] →
      (get_stats tbl).first_message_ts = none ∧
      (get_stats tbl).last_message_ts = none) ∧
    (tbl ≠ [] →
      ∃ a b, (get_stats tbl).first_message_ts = some a ∧
        (get_stats tbl).last_message_ts = some b ∧ strLeb a b = true) := by
  refine ⟨rfl, ?_, ?_, ?_, ?_, ?_⟩
  · show (sendersDedup tbl).length = (tbl.map Msg.from_msisdn).toFinset.card
    rw [List.card_toFinset]
    rfl
  · intro hle
    show (((sortCountsDesc (senderCounts tbl)).take 10).map
        (fun p => p.2)).sum = tbl.length
    have hperm : (sortCountsDesc (senderCounts tbl)).Perm (senderCounts tbl) :=
      List.perm_insertionSort _ _
    have hlen : (sortCountsDesc (senderCounts tbl)).length ≤ 10 := by
      rw [hperm.length_eq]
      show ((sendersDedup tbl).map _).length ≤ 10
      rw [List.length_map]
      exact hle
    rw [List.take_of_length_le hlen]
    rw [(hperm.map _).sum_eq]
    show (((sendersDedup tbl).map
        (fun s => (s, (tbl.map Msg.from_msisdn).count s))).map
          (fun p => p.2)).sum = tbl.length
    rw [List.map_map]
    have hcomp : ((fun p : String × Nat => p.2) ∘
        (fun s => (s, (tbl.map Msg.from_msisdn).count s)))
        = fun s => (tbl.map Msg.from_msisdn).count s := rfl
    rw [hcomp]
    have h := List.sum_map_count_dedup_eq_length (tbl.map Msg.from_msisdn)
    rw [show sendersDedup tbl = (tbl.map Msg.from_msisdn).dedup from rfl, h,
      List.length_map]
  · show ((sortCountsDesc (senderCounts tbl)).take 10).length ≤ 10
    rw [List.length_take]
    omega
  · intro h
    subst h
    exact ⟨rfl, rfl⟩
  · intro h
    have hts : tbl.map Msg.ts ≠ [] := fun hc => h (by simpa using hc)
    obtain ⟨mn, hmn, hmnall⟩ := minTs_spec hts
    obtain ⟨mx, hmx, hmxmem⟩ := maxTs_spec hts
    exact ⟨mn, mx, hmn, hmx, hmnall mx hmxmem⟩

/-- C5 witness: the amended sum property and the timestamp order evaluated
on a concrete two-message store. -/
theorem get_stats_correct_witness :
    (((get_stats statsWitnessTbl).messages_per_sender.map
        (fun p => p.2)).sum = (get_stats statsWitnessTbl).total_messages) ∧
    (∃ a b, (get_stats statsWitnessTbl).first_message_ts = some a ∧
      (get_stats statsWitnessTbl).last_message_ts = some b ∧
      strLeb a b = true) :=
  ⟨(get_stats_correct statsWitnessTbl).2.2.1 (by decide),
   (get_stats_correct statsWitnessTbl).2.2.2.2.2 (by decide)⟩

/-- C6 counterexample: called with the out-of-range limit 0 (and with
negative values) the store raises nothing and executes the query: it
returns an empty page yet total 1, and with limit -1 it returns every
row. -/
theorem get_messages_no_reject_cex :
    get_messages outOfRangeTbl 0 0 none none none = ([], 1) ∧
    get_messages outOfRangeTbl (-1) (-1) none none none
      = (outOfRangeTbl, 1) := by decide

/-- C6 (corrected).  The store performs no validation of limit or offset:
it executes the query with whatever values arrive.  Limit 0 yields an
empty page, a negative limit yields all remaining rows, a negative offset
acts as 0, and the reported total is unaffected.  Range validation exists
only in the HTTP layer. -/
theorem get_messages_out_of_range (tbl : List Msg)
    (from_filter since q : Option String) :
    (get_messages tbl 0 0 from_filter since q).1 = [] ∧
    (get_messages tbl 0 0 from_filter since q).2
      = (tbl.filter (matchesFilters from_filter since q)).length ∧
    (get_messages tbl (-1) (-1) from_filter since q).1
      = sortMsgs (tbl.filter (matchesFilters from_filter since q)) ∧
    (get_messages tbl (-1) (-1) from_filter since q).2
      = (tbl.filter (matchesFilters from_filter since q)).length := by
  have hneg : ((-1 : Int)).toNat = 0 := rfl
  refine ⟨?_, rfl, ?_, rfl⟩
  · simp [get_messages, sqlLimit, sqlOffset]
  · simp [get_messages, sqlLimit, sqlOffset, hneg]

set_option maxRecDepth 100000 in
/-- C7 counterexample: the query a_b is not an ASCII-case-insensitive
substring of the text aXb, yet the stored message is returned, because the
underscore acts as a LIKE wildcard in the un-escaped pattern. -/
theorem get_messages_like_wildcard_cex :
    (get_messages [likeCexMsg] 50 0 none none (some "a_b")).1 = [likeCexMsg] ∧
    ciContains "a_b" "aXb" = false := by decide

/-- C7 (corrected).  Filter semantics: the three filters are AND-combined,
so the unpaged result set is the intersection of the three individual
result sets; the sender filter is exact equality; the since filter is a
TEXT-collation comparison ts >= since; a null text never matches a
non-empty query; and for a text_query free of the LIKE wildcards percent
and underscore the query filter is ASCII-case-insensitive substring
containment.  (A query containing percent or underscore is interpreted as
a LIKE pattern instead, as the counterexample shows.) -/
theorem get_messages_filter_semantics (tbl : List Msg) (f s q : String)
    (m : Msg) (hf : f ≠ "") (hs : s ≠ "") (hq : q ≠ "")
    (hqw : ∀ c ∈ q.data, c ≠ '%' ∧ c ≠ '_') :
    (m ∈ (get_messages tbl (-1) 0 (some f) (some s) (some q)).1 ↔
      (m ∈ (get_messages tbl (-1) 0 (some f) none none).1 ∧
        m ∈ (get_messages tbl (-1) 0 none (some s) none).1 ∧
        m ∈ (get_messages tbl (-1) 0 none none (some q)).1)) ∧
    (matchesFrom (some f) m = true ↔ m.from_msisdn = f) ∧
    (matchesSince (some s) m = true ↔ strLeb s m.ts = true) ∧
    (m.text = none → matchesQ (some q) m = false) ∧
    (matchesQ (some q) m = true ↔
      ∃ t, m.text = some t ∧ ciContains q t = true) := by
  refine ⟨?_, ?_, ?_, ?_, ?_⟩
  · simp only [mem_get_messages_unpaged]
    simp only [matchesFilters, matchesSince, matchesQ, matchesFrom,
      Bool.and_eq_true, Bool.and_true, Bool.true_and]
    tauto
  · simp [matchesFrom, hf, beq_iff_eq]
  · simp [matchesSince, hs]
  · intro hnone
    simp [matchesQ, hq, hnone]
  · cases htext : m.text with
    | none => simp [matchesQ, hq, htext]
    | some t =>
        have hw : matchesQ (some q) m = ciContains q t := by
          simp only [matchesQ, htext, if_neg hq]
          exact likeMatch_wrapped q.data t.data hqw
        rw [hw]
        constructor
        · intro hc
          exact ⟨t, rfl, hc⟩
        · rintro ⟨t1, ht1, hc⟩
          rwa [Option.some.inj ht1]

/-- C7 witness: the substring reading of the query filter on a concrete
message with text Hello World and query world. -/
theorem get_messages_filter_semantics_witness :
    matchesQ (some "world") filterWitnessMsg = true ↔
      ∃ t, filterWitnessMsg.text = some t ∧ ciContains "world" t = true :=
  (get_messages_filter_semantics [filterWitnessMsg] "+15550001111"
    "2025-01-01T00:00:00Z" "world" filterWitnessMsg
    (by decide) (by decide) (by decide) (by decide)).2.2.2.2

/-- C8 (confirmed).  Latency recording: one observation adds the value to
the running sum, adds one to the running count, and increments exactly the
buckets whose boundary is at least the value; consequently, after any
sequence of observations every bucket's stored count is the number of
observations at or below its boundary. -/
theorem observe_latency_histogram (st : MetricsState) (ms : ℚ)
    (xs : List ℚ) :
    (observe_latency st ms).latency_sum = st.latency_sum + ms ∧
    (observe_latency st ms).latency_count = st.latency_count + 1 ∧
    (observe_latency st ms).latency_counts
      = st.latency_counts.map
          (fun e => (e.1, e.2 + if leBoundary ms e.1 then 1 else 0)) ∧
    (xs.foldl observe_latency initMetrics).latency_counts
      = latencyBuckets.map
          (fun b => (b, xs.countP (fun x => leBoundary x b))) := by
  refine ⟨rfl, rfl, ?_, ?_⟩
  · show st.latency_counts.map
        (fun e => if leBoundary ms e.1 then (e.1, e.2 + 1) else e) = _
    apply List.map_congr_left
    intro e he
    by_cases hle : leBoundary ms e.1 = true <;> simp [hle]
  · rw [(foldl_observe xs initMetrics).1]
    show (latencyBuckets.map (fun b => (b, 0))).map _ = _
    rw [List.map_map]
    apply List.map_congr_left
    intro b hb
    simp [Function.comp]

/-- C9 (code_bug).  After a single observation of 5 ms the stored bucket
counts are already cumulative, yet export sums them again: the value
printed for le = +Inf is 10 even though only one observation was recorded
(and the value for le = 25 is 2 while only one observation is at or below
25), contradicting the Prometheus histogram convention the exporter itself
declares. -/
theorem export_histogram_double_counts :
    (observe_latency initMetrics 5).latency_count = 1 ∧
    exportBucketValue (observe_latency initMetrics 5) none = 10 ∧
    exportBucketValue (observe_latency initMetrics 5) (some 25) = 2 ∧
    [(5 : ℚ)].countP (fun x => leBoundary x (some 25)) = 1 ∧
    [(5 : ℚ)].countP (fun x => leBoundary x none) = 1 := by decide

/-- C10 (confirmed).  insert_message reports success and duplicate for
every IntegrityError, not only a duplicate primary key: passing NULL for
from_msisdn, to_msisdn or ts violates a NOT NULL constraint, and the
caller is told (True, True) while nothing is stored. -/
theorem insert_message_null_as_duplicate (tbl : List Msg) (mid : String)
    (f t ts text : Option String) (c : String)
    (hnull : f = none ∨ t = none ∨ ts = none) :
    insert_message tbl mid f t ts text c = (tbl, true, true) := by
  rcases hnull with rfl | rfl | rfl
  · cases t <;> cases ts <;> simp [insert_message]
  · cases f <;> cases ts <;> simp [insert_message]
  · cases f <;> cases t <;> simp [insert_message]

/-- C10 witness: a NULL from_msisdn on the empty table is reported as a
successful duplicate and stores nothing. -/
theorem insert_message_null_as_duplicate_witness :
    insert_message [] "m1" none (some "+2") (some "2025-01-01T00:00:00Z")
      (some "x") "c" = ([], true, true) :=
  insert_message_null_as_duplicate [] "m1" none (some "+2")
    (some "2025-01-01T00:00:00Z") (some "x") "c" (Or.inl rfl)
